import Mathlib

/-!
Shallow embedding of the wiki table-of-contents core of this repository:
the heading slug generator, the collision-aware heading-ID generator, the
markdown TOC parser, the two revisions of the TOC selector, the
active-heading tracker update logic, and the scroll navigator.

Strings are modelled through their character lists (`String.data`), and the
JavaScript regular expressions of the source are embedded as explicit,
structurally recursive character-list transformations.  All definitions are
executable, so concrete runs can be settled by kernel evaluation.
-/

namespace Wegent

/-- Character class of the JavaScript regex class `\s` (and of
`String.prototype.trim`): ASCII whitespace plus the Unicode whitespace
code points enumerated by the ECMAScript standard. -/
def isJsWhitespace (c : Char) : Bool :=
  (9 ≤ c.toNat && c.toNat ≤ 13) || c.toNat = 32 || c.toNat = 0xa0 ||
  c.toNat = 0x1680 || (0x2000 ≤ c.toNat && c.toNat ≤ 0x200a) ||
  c.toNat = 0x2028 || c.toNat = 0x2029 || c.toNat = 0x202f ||
  c.toNat = 0x205f || c.toNat = 0x3000 || c.toNat = 0xfeff

/-- Character class of the JavaScript regex class `\w`:
ASCII letters, ASCII digits and the underscore. -/
def isWordChar (c : Char) : Bool :=
  c.isAlpha || c.isDigit || c = '_'

/-- Line terminators recognized by the `m` flag of JavaScript regexes. -/
def isLineTerminator (c : Char) : Bool :=
  c = '\n' || c = '\r' || c.toNat = 0x2028 || c.toNat = 0x2029

/-- JavaScript `String.prototype.trim` on character lists:
drop whitespace from both ends. -/
def trimChars (l : List Char) : List Char :=
  ((l.dropWhile isJsWhitespace).reverse.dropWhile isJsWhitespace).reverse

/-- Replace every maximal run of characters satisfying `p` by the single
character `rep`; the flag records whether the scan is currently inside a
run.  This embeds a JavaScript `replace(/[class]+/g, rep)`. -/
def collapseAux (p : Char → Bool) (rep : Char) : Bool → List Char → List Char
  | _, [] => []
  | inRun, c :: cs =>
    if p c then
      if inRun then collapseAux p rep true cs
      else rep :: collapseAux p rep true cs
    else c :: collapseAux p rep false cs

/-- Replace every maximal run of `p`-characters by the single character
`rep` (the scan starts outside a run). -/
def collapseRuns (p : Char → Bool) (rep : Char) (l : List Char) : List Char :=
  collapseAux p rep false l

/-- JavaScript `replace(/^-+|-+$/g, '')`: strip the leading and the
trailing run of hyphens. -/
def stripEdgeHyphens (l : List Char) : List Char :=
  ((l.dropWhile (fun c => c = '-')).reverse.dropWhile (fun c => c = '-')).reverse

/-- Character-list body of `generateHeadingSlug` from
`src/frontend/src/features/knowledge/tocUtils.ts`: lowercase and trim,
strip characters other than word characters, whitespace and hyphens,
replace whitespace/underscore runs by a hyphen, collapse hyphen runs,
strip leading/trailing hyphens. -/
def slugChars (l : List Char) : List Char :=
  let s1 := trimChars (l.map Char.toLower)
  let s2 := s1.filter (fun c => isWordChar c || isJsWhitespace c || c = '-')
  let s3 := collapseRuns (fun c => isJsWhitespace c || c = '_') '-' s2
  let s4 := collapseRuns (fun c => c = '-') '-' s3
  stripEdgeHyphens s4

/-- The function `generateHeadingSlug` of `tocUtils.ts`.  The final
`slug || 'heading'` of the source returns the literal fallback when the
processed string is empty (the empty string is falsy). -/
def generateHeadingSlug (text : String) : String :=
  let slug := String.mk (slugChars text.data)
  if slug = "" then "heading" else slug

/-- Decimal digit list (most significant first) of a natural number,
with explicit fuel so that the recursion is structural and
kernel-evaluable.  Empty on `0`; the wrapper `natToDec` special-cases
`0`. -/
def natToDecAux : Nat → Nat → List Char
  | 0, _ => []
  | fuel + 1, n =>
    if n = 0 then [] else natToDecAux fuel (n / 10) ++ [Nat.digitChar (n % 10)]

/-- Decimal rendering of a natural number, as produced by JavaScript
template interpolation of a nonnegative integer. -/
def natToDec (n : Nat) : String :=
  if n = 0 then "0" else String.mk (natToDecAux (n + 1) n)

/-- The candidate IDs tried by `HeadingIdGenerator.generateId` of
`tocUtils.ts`, in order: the base slug itself, then `base-1`, `base-2`,
and so on. -/
def candidate (base : String) : Nat → String
  | 0 => base
  | k + 1 => base ++ "-" ++ natToDec (k + 1)

/-- The `while (this.existingIds.has(id))` loop of
`HeadingIdGenerator.generateId`: starting from candidate index `k`, walk
the candidate sequence until one is not among the issued IDs.  The fuel
bounds the number of membership tests; the caller supplies enough fuel
for the loop to reach a free candidate. -/
def genLoop (used : List String) (base : String) : Nat → Nat → String
  | 0, k => candidate base k
  | fuel + 1, k =>
    if candidate base k ∈ used then genLoop used base fuel (k + 1)
    else candidate base k

/-- State of the `HeadingIdGenerator` class of `tocUtils.ts`: the set of
already-issued IDs, modelled as the list of issued IDs. -/
structure HeadingIdGenerator where
  existingIds : List String
deriving DecidableEq

/-- A freshly constructed `HeadingIdGenerator` (`new HeadingIdGenerator()`),
with no issued IDs. -/
def HeadingIdGenerator.empty : HeadingIdGenerator := ⟨[]⟩

/-- The method `generateId` of `HeadingIdGenerator`: compute the base
slug, walk the candidate sequence to the first ID not yet issued, record
it and return it.  The fuel `existingIds.length + 1` suffices because the
candidates are pairwise distinct, so one of the first
`existingIds.length + 1` candidates is free. -/
def HeadingIdGenerator.generateId (g : HeadingIdGenerator) (text : String) :
    String × HeadingIdGenerator :=
  let baseId := generateHeadingSlug text
  let id := genLoop g.existingIds baseId (g.existingIds.length + 1) 0
  (id, ⟨id :: g.existingIds⟩)

/-- The method `reset` of `HeadingIdGenerator`: clear the issued-ID set. -/
def HeadingIdGenerator.reset (_g : HeadingIdGenerator) : HeadingIdGenerator :=
  ⟨[]⟩

/-- Feed a sequence of heading texts to a generator, collecting the
returned IDs in call order. -/
def runGenAux : List String → HeadingIdGenerator → List String
  | [], _ => []
  | t :: ts, g =>
    let r := g.generateId t
    r.1 :: runGenAux ts r.2

/-- IDs returned by one `HeadingIdGenerator` instance, created fresh and
then fed the given texts in order. -/
def runGenerator (texts : List String) : List String :=
  runGenAux texts HeadingIdGenerator.empty

/-- Split a character stream at the JavaScript line terminators, which is
where the `m`-flag anchors `^` and `$` of the heading regex of
`parseTocFromMarkdown` match. -/
def splitLinesAux : List Char → List Char → List (List Char)
  | acc, [] => [acc.reverse]
  | acc, c :: cs =>
    if isLineTerminator c then acc.reverse :: splitLinesAux [] cs
    else splitLinesAux (c :: acc) cs

/-- Lines of a character stream, in order. -/
def splitLines (l : List Char) : List (List Char) :=
  splitLinesAux [] l

/-- Extract capture group 2 of the heading regex
`^(#{2,3})\s+(.+?)(?:\s*\x7b#[\w-]+\x7d)?\s*$` from the part of the line
that follows the hash marks and the leading whitespace.  The lazy group
ends before the longest proper suffix that the tail of the regex can
match: either a run of whitespace, or an optional whitespace run followed
by an explicit anchor annotation followed by trailing whitespace. -/
def extractText (T : List Char) : List Char :=
  if T = [] then []
  else
    let R := T.reverse
    let W := R.takeWhile isJsWhitespace
    let core := R.drop W.length
    match core with
    | '}' :: k =>
      let run := k.takeWhile (fun c => isWordChar c || c = '-')
      let k2 := k.drop run.length
      if run.isEmpty then core.reverse
      else
        match k2 with
        | '#' :: '{' :: k3 =>
          let pre := k3.dropWhile isJsWhitespace
          if pre.isEmpty then core.reverse else pre.reverse
        | _ => core.reverse
    | _ => core.reverse

/-- Match one line against the heading regex of `parseTocFromMarkdown`.
A line matches when it starts with exactly two or three hash marks
followed by at least one whitespace character and at least one further
character; the result is the heading level together with the (trimmed)
heading text of capture group 2. -/
def matchHeadingLine (line : List Char) : Option (Nat × List Char) :=
  let hashes := line.takeWhile (fun c => c = '#')
  let rest := line.drop hashes.length
  if hashes.length = 2 || hashes.length = 3 then
    match rest with
    | [] => none
    | c :: crest =>
      if isJsWhitespace c && ¬ crest.isEmpty then
        some (hashes.length, extractText (rest.dropWhile isJsWhitespace))
      else none
  else none

/-- Split a character list at the first occurrence of the pattern `d`,
returning the part before the occurrence and the part after it. -/
def splitFirstOcc (d : List Char) : List Char → Option (List Char × List Char)
  | [] => if d.isEmpty then some ([], []) else none
  | c :: cs =>
    if d.isPrefixOf (c :: cs) then some ([], (c :: cs).drop d.length)
    else
      match splitFirstOcc d cs with
      | some (b, a) => some (c :: b, a)
      | none => none

/-- JavaScript `replace(/d(.+?)d/g, '$1')` for a literal delimiter `d`:
find the first occurrence of `d`, then the next occurrence of `d` at least
one character later; replace the whole match by the inner characters and
continue after it.  When the first occurrence has no closer, no later
occurrence has one either, so the remainder is kept unchanged. -/
def replaceDelimAux (d : List Char) : Nat → List Char → List Char
  | 0, l => l
  | fuel + 1, l =>
    match splitFirstOcc d l with
    | none => l
    | some (pre, rest) =>
      match rest with
      | [] => l
      | r0 :: rtail =>
        match splitFirstOcc d rtail with
        | none => l
        | some (innerTail, post) =>
          pre ++ (r0 :: innerTail) ++ replaceDelimAux d fuel post

/-- Strip one kind of paired inline-formatting delimiter,
as in `text.replace(/\*\*(.+?)\*\*/g, '$1')`. -/
def replaceDelim (d : List Char) (l : List Char) : List Char :=
  replaceDelimAux d l.length l

/-- JavaScript `replace(/\[(.+?)\]\(.+?\)/g, '$1')`: rewrite markdown
links to their display text.  The lazy groups make the match use the
first `](` after the opening bracket and the first `)` after that. -/
def replaceLinksAux : Nat → List Char → List Char
  | 0, l => l
  | fuel + 1, l =>
    match splitFirstOcc ['['] l with
    | none => l
    | some (pre, rest) =>
      match rest with
      | [] => l
      | r0 :: rtail =>
        match splitFirstOcc [']', '('] rtail with
        | none => l
        | some (innerTail, rest2) =>
          match rest2 with
          | [] => l
          | _s0 :: stail =>
            match splitFirstOcc [')'] stail with
            | none => l
            | some (_, post) =>
              pre ++ (r0 :: innerTail) ++ replaceLinksAux fuel post

/-- Rewrite markdown links to their display text. -/
def replaceLinks (l : List Char) : List Char :=
  replaceLinksAux l.length l

/-- The four text clean-up replacements of `parseTocFromMarkdown`, in
source order: bold, italic, inline code (backtick), links. -/
def cleanupText (l : List Char) : List Char :=
  let t1 := replaceDelim ['*', '*'] l
  let t2 := replaceDelim ['*'] t1
  let t3 := replaceDelim [Char.ofNat 96] t2
  replaceLinks t3

/-- A table-of-contents entry (`WikiTocItem` of `types/wiki`). -/
structure WikiTocItem where
  id : String
  text : String
  level : Nat
deriving DecidableEq

/-- The scan loop of `parseTocFromMarkdown`: walk the lines, thread the
heading-ID generator, skip non-matching lines and headings above
`maxLevel`, clean the text of each matching heading and emit an item. -/
def parseTocGo (maxLevel : Nat) : List (List Char) → HeadingIdGenerator → List WikiTocItem
  | [], _ => []
  | line :: ls, g =>
    match matchHeadingLine line with
    | none => parseTocGo maxLevel ls g
    | some (level, rawText) =>
      if level > maxLevel then parseTocGo maxLevel ls g
      else
        let text := String.mk (cleanupText rawText)
        let r := g.generateId text
        ⟨r.1, text, level⟩ :: parseTocGo maxLevel ls r.2

/-- The function `parseTocFromMarkdown` of `tocUtils.ts` (the source
defaults `maxLevel` to 3; call sites of this embedding pass 3
explicitly).  The `if (!content) return []` of the source returns the
empty list on the falsy empty string. -/
def parseTocFromMarkdown (content : String) (maxLevel : Nat) : List WikiTocItem :=
  if content = "" then []
  else parseTocGo maxLevel (splitLines content.data) HeadingIdGenerator.empty

/-- Runtime value found in the `toc` field of `WikiContent.ext`: either a
JavaScript array of TOC items, or some other (malformed) value, which
`Array.isArray` rejects. -/
inductive TocField where
  | arr (items : List WikiTocItem) : TocField
  | nonArray : TocField
deriving DecidableEq

/-- The optional `ext` object of `WikiContent`, whose `toc` field may be
absent. -/
structure WikiExt where
  toc : Option TocField
deriving DecidableEq

/-- The `WikiContent` object consumed by the TOC selectors: raw markdown
plus an optional `ext` carrying an optional backend TOC. -/
structure WikiContent where
  content : String
  ext : Option WikiExt
deriving DecidableEq

/-- The condition guarding the backend-TOC branch of both revisions of
`getTocFromContent`: `content.ext?.toc` exists, is an array, and is
non-empty. -/
def hasBackendToc (c : WikiContent) : Bool :=
  match Option.bind c.ext WikiExt.toc with
  | some (TocField.arr items) => !items.isEmpty
  | _ => false

namespace tocUtils

/-- The function `getTocFromContent` of `tocUtils.ts` (fallback
revision): empty on `null`, the backend TOC verbatim when present as a
non-empty array, otherwise the client-side parse of the markdown. -/
def getTocFromContent (content : Option WikiContent) : List WikiTocItem :=
  match content with
  | none => []
  | some c =>
    match Option.bind c.ext WikiExt.toc with
    | some (TocField.arr items) =>
      if !items.isEmpty then items else parseTocFromMarkdown c.content 3
    | _ => parseTocFromMarkdown c.content 3

/-- The function `getH2TocItems` of `tocUtils.ts`. -/
def getH2TocItems (toc : List WikiTocItem) : List WikiTocItem :=
  toc.filter (fun item => item.level = 2)

end tocUtils

namespace scrollUtils

/-- The function `getTocFromContent` of `scrollUtils.ts` (strict
revision): the backend TOC verbatim when present as a non-empty array,
otherwise the empty list; there is no client-side parsing fallback. -/
def getTocFromContent (content : Option WikiContent) : List WikiTocItem :=
  match content with
  | none => []
  | some c =>
    match Option.bind c.ext WikiExt.toc with
    | some (TocField.arr items) =>
      if !items.isEmpty then items else []
    | _ => []

/-- An element as the scroll navigator sees it: the top of its bounding
client rect (in pixels; the fractional part plays no role here). -/
structure Element where
  top : Int
deriving DecidableEq

/-- The document and window state read by the scroll navigator:
`document.getElementById` and `window.scrollY`. -/
structure Dom where
  elements : String → Option Element
  scrollY : Int

/-- A scrollable container: its bounding-rect top and its current
`scrollTop`. -/
structure Container where
  rectTop : Int
  scrollTop : Int
deriving DecidableEq

/-- A smooth-scroll request issued by the navigator: either on the window
or on the container, with the requested target position. -/
inductive ScrollAction where
  | window (top : Int) : ScrollAction
  | container (top : Int) : ScrollAction
deriving DecidableEq

/-- The function `scrollToHeading` of `scrollUtils.ts`: resolve the
element by ID; when absent return without any scroll request, otherwise
request a window scroll to the element position compensated by the
offset. -/
def scrollToHeading (dom : Dom) (id : String) (offset : Int) : Option ScrollAction :=
  match dom.elements id with
  | none => none
  | some el => some (ScrollAction.window (el.top + dom.scrollY - offset))

/-- The function `scrollToHeadingInContainer` of `scrollUtils.ts`: with a
null container fall back to `scrollToHeading`; otherwise resolve the
element by ID, and when absent return without any scroll request. -/
def scrollToHeadingInContainer (dom : Dom) (id : String)
    (container : Option Container) (offset : Int) : Option ScrollAction :=
  match container with
  | none => scrollToHeading dom id offset
  | some cont =>
    match dom.elements id with
    | none => none
    | some el =>
      some (ScrollAction.container (el.top - cont.rectTop + cont.scrollTop - offset))

end scrollUtils

namespace useActiveHeading

/-- An `IntersectionObserverEntry` as consumed by `handleIntersection` of
the `useActiveHeading` hook: the intersection flag, the top of the
bounding client rect, and the `id` of the target element. -/
structure IntersectionEntry where
  isIntersecting : Bool
  top : Int
  targetId : String
deriving DecidableEq

/-- The comparator `(a, b) => a.boundingClientRect.top -
b.boundingClientRect.top` of the source, as the stable-sort order it
induces. -/
def topLe (a b : IntersectionEntry) : Bool :=
  a.top ≤ b.top

/-- Stable insertion of an element into a sorted list: the element goes
in front of the first entry not strictly smaller than it. -/
def sortedInsert (le : IntersectionEntry → IntersectionEntry → Bool)
    (x : IntersectionEntry) : List IntersectionEntry → List IntersectionEntry
  | [] => [x]
  | y :: ys => if le x y then x :: y :: ys else y :: sortedInsert le x ys

/-- Stable sort, modelling `Array.prototype.sort` (which the ECMAScript
standard requires to be stable) with the given comparator order. -/
def stableSort (le : IntersectionEntry → IntersectionEntry → Bool) :
    List IntersectionEntry → List IntersectionEntry
  | [] => []
  | x :: xs => sortedInsert le x (stableSort le xs)

/-- The callback `handleIntersection` of `useActiveHeading`: filter the
batch to the intersecting entries, sort them by bounding-rect top, and
when any remain make the first one active; otherwise leave the active
heading unchanged (`setActiveId` is not called). -/
def handleIntersection (entries : List IntersectionEntry)
    (active : Option String) : Option String :=
  let visibleEntries := stableSort topLe (entries.filter (fun e => e.isIntersecting))
  match visibleEntries with
  | [] => active
  | e :: _ => some e.targetId

/-- JavaScript truthiness test `!activeId` on the active-heading state:
both `null` and the empty string are falsy. -/
def isFalsyActive (active : Option String) : Bool :=
  match active with
  | none => true
  | some s => s = ""

/-- The initial-default effect of `useActiveHeading`: when the ID list is
non-empty and the active state is falsy, make the first listed ID active;
otherwise leave the state unchanged. -/
def applyInitialDefault (headingIds : List String) (active : Option String) :
    Option String :=
  match headingIds with
  | [] => active
  | h :: _ => if isFalsyActive active then some h else active

end useActiveHeading

/-- Re-parse a most-significant-first decimal digit list, with an
accumulator.  Inverse of `natToDecAux`, used to show that the rendered
candidate suffixes are pairwise distinct. -/
def decValAux : List Char → Nat → Nat
  | [], acc => acc
  | c :: cs, acc => decValAux cs (acc * 10 + (c.toNat - 48))

/-- Two successive calls of `parseTocFromMarkdown`, modelled as the pair
of results: the source allocates its heading-ID generator inside each
call, so no state flows from one call into the next. -/
def parseTocTwice (md₁ md₂ : String) (maxLevel : Nat) :
    List WikiTocItem × List WikiTocItem :=
  (parseTocFromMarkdown md₁ maxLevel, parseTocFromMarkdown md₂ maxLevel)

/-- Modelled from the spec, section 4.1: the slug pipeline as the spec
states it, with the run-collapsing steps written as a direct recursion on
runs rather than the flag-threading scan of the embedding of the source.
Used to compare the source function against the spec wording. -/
def specCollapseRuns (p : Char → Bool) (rep : Char) : List Char → List Char
  | [] => []
  | c :: cs =>
    if p c then rep :: specCollapseRuns p rep (cs.dropWhile p)
    else c :: specCollapseRuns p rep cs
termination_by l => l.length
decreasing_by
  · simp only [List.length_cons]
    exact Nat.lt_succ_of_le (List.dropWhile_sublist p).length_le
  · simp

/-- Modelled from the spec, section 4.1: lowercase and trim, delete
characters other than word characters, whitespace and hyphens, replace
each whitespace/underscore run with a single hyphen, collapse hyphen
runs, strip leading and trailing hyphens, and fall back to the literal
string when the result is empty. -/
def specHeadingSlug (text : String) : String :=
  let s1 := trimChars (text.data.map Char.toLower)
  let s2 := s1.filter (fun c => isWordChar c || isJsWhitespace c || c = '-')
  let s3 := specCollapseRuns (fun c => isJsWhitespace c || c = '_') '-' s2
  let s4 := specCollapseRuns (fun c => c = '-') '-' s3
  let s5 := stripEdgeHyphens s4
  if s5 = [] then "heading" else String.mk s5

/-! Helper lemmas. -/

theorem decValAux_append (l₁ l₂ : List Char) (acc : Nat) :
    decValAux (l₁ ++ l₂) acc = decValAux l₂ (decValAux l₁ acc) := by
  induction l₁ generalizing acc with
  | nil => rfl
  | cons c cs ih => simp [decValAux, ih]

theorem digitChar_toNat_sub {d : Nat} (h : d < 10) :
    (Nat.digitChar d).toNat - 48 = d := by
  interval_cases d <;> rfl

theorem decValAux_natToDecAux :
    ∀ (fuel n : Nat), n < fuel → ∀ acc,
      decValAux (natToDecAux fuel n) acc =
        acc * 10 ^ (natToDecAux fuel n).length + n := by
  intro fuel
  induction fuel with
  | zero => intro n h; omega
  | succ fuel ih =>
    intro n h acc
    by_cases h0 : n = 0
    · subst h0; simp [natToDecAux, decValAux]
    · have hdiv : n / 10 < fuel := by
        have hlt : n / 10 < n := Nat.div_lt_self (Nat.pos_of_ne_zero h0) (by omega)
        omega
      have hmod : n % 10 < 10 := Nat.mod_lt n (by omega)
      simp only [natToDecAux, h0, if_false, decValAux_append,
        List.length_append, List.length_cons, List.length_nil]
      rw [ih (n / 10) hdiv acc]
      simp only [decValAux, digitChar_toNat_sub hmod]
      have hpow : 10 ^ ((natToDecAux fuel (n / 10)).length + (0 + 1)) =
          10 ^ (natToDecAux fuel (n / 10)).length * 10 := by
        simp [pow_succ]
      rw [hpow]
      have hacc : acc * (10 ^ (natToDecAux fuel (n / 10)).length * 10) =
          acc * 10 ^ (natToDecAux fuel (n / 10)).length * 10 := by ring
      rw [hacc]
      generalize acc * 10 ^ (natToDecAux fuel (n / 10)).length = X
      omega

theorem decValAux_natToDec (n : Nat) : decValAux (natToDec n).data 0 = n := by
  by_cases h0 : n = 0
  · subst h0; decide
  · simp only [natToDec, h0, if_false]
    rw [decValAux_natToDecAux (n + 1) n (by omega) 0]
    simp

theorem natToDec_injective : Function.Injective natToDec := by
  intro a b h
  have h2 := congrArg (fun s => decValAux s.data 0) h
  simpa [decValAux_natToDec] using h2

theorem append_right_ne (base s : String) (h : s ≠ "") : base ++ s ≠ base := by
  intro he
  have hlen := congrArg String.length he
  rw [String.length_append] at hlen
  have hs : s.length = 0 := by omega
  apply h
  apply String.ext
  have : s.data.length = 0 := hs
  exact List.length_eq_zero.mp this

theorem append_right_inj (base s₁ s₂ : String) :
    base ++ s₁ = base ++ s₂ ↔ s₁ = s₂ := by
  constructor
  · intro h
    apply String.ext
    have hd := congrArg String.data h
    simp only [String.data_append] at hd
    exact List.append_cancel_left hd
  · intro h; rw [h]

theorem candidate_injective (base : String) : Function.Injective (candidate base) := by
  intro i j h
  match i, j with
  | 0, 0 => rfl
  | 0, j + 1 =>
    exfalso
    have hlen := congrArg String.length h.symm
    simp only [candidate, String.length_append] at hlen
    have hdash : ("-" : String).length = 1 := rfl
    omega
  | i + 1, 0 =>
    exfalso
    have hlen := congrArg String.length h
    simp only [candidate, String.length_append] at hlen
    have hdash : ("-" : String).length = 1 := rfl
    omega
  | i + 1, j + 1 =>
    have h2 : natToDec (i + 1) = natToDec (j + 1) := by
      simp only [candidate] at h
      rw [String.append_assoc, String.append_assoc, append_right_inj,
        append_right_inj] at h
      exact h
    have := natToDec_injective h2
    omega

theorem exists_free_candidate (used : List String) (base : String) :
    ∃ j, j < used.length + 1 ∧ candidate base j ∉ used := by
  by_contra hcon
  push_neg at hcon
  have hsub : (Finset.range (used.length + 1)).image (candidate base) ⊆ used.toFinset := by
    intro x hx
    rw [Finset.mem_image] at hx
    obtain ⟨j, hj, rfl⟩ := hx
    rw [Finset.mem_range] at hj
    exact List.mem_toFinset.mpr (hcon j hj)
  have hcard := Finset.card_le_card hsub
  rw [Finset.card_image_of_injective _ (candidate_injective base),
    Finset.card_range] at hcard
  have hlen := List.toFinset_card_le used
  omega

theorem genLoop_spec (used : List String) (base : String) :
    ∀ (fuel k : Nat), (∃ j, j < fuel ∧ candidate base (k + j) ∉ used) →
      genLoop used base fuel k ∉ used ∧
      ∃ m, genLoop used base fuel k = candidate base m ∧ k ≤ m ∧
        ∀ i, k ≤ i → i < m → candidate base i ∈ used := by
  intro fuel
  induction fuel with
  | zero =>
    intro k h
    obtain ⟨j, hj, _⟩ := h
    omega
  | succ fuel ih =>
    intro k h
    obtain ⟨j, hj, hfree⟩ := h
    by_cases hmem : candidate base k ∈ used
    · have hj0 : j ≠ 0 := by
        intro h0
        subst h0
        simp only [Nat.add_zero] at hfree
        exact hfree hmem
      obtain ⟨j', rfl⟩ : ∃ j', j = j' + 1 := ⟨j - 1, by omega⟩
      have hrec := ih (k + 1)
        ⟨j', by omega, by rwa [show k + 1 + j' = k + (j' + 1) by omega]⟩
      simp only [genLoop, hmem, if_true]
      refine ⟨hrec.1, ?_⟩
      obtain ⟨m, hm, hkm, hall⟩ := hrec.2
      refine ⟨m, hm, by omega, fun i h1 h2 => ?_⟩
      rcases Nat.eq_or_lt_of_le h1 with heq | hlt
      · rw [← heq]; exact hmem
      · exact hall i hlt h2
    · simp only [genLoop, hmem, if_false]
      exact ⟨by simp, k, rfl, Nat.le_refl k, fun i h1 h2 => by omega⟩

theorem generateId_fst_not_mem (g : HeadingIdGenerator) (t : String) :
    (g.generateId t).1 ∉ g.existingIds := by
  obtain ⟨j, hj, hfree⟩ := exists_free_candidate g.existingIds (generateHeadingSlug t)
  have h := genLoop_spec g.existingIds (generateHeadingSlug t)
    (g.existingIds.length + 1) 0 ⟨j, hj, by simpa using hfree⟩
  exact h.1

theorem generateId_least (g : HeadingIdGenerator) (t : String) :
    ∃ m, (g.generateId t).1 = candidate (generateHeadingSlug t) m ∧
      ∀ i, i < m → candidate (generateHeadingSlug t) i ∈ g.existingIds := by
  obtain ⟨j, hj, hfree⟩ := exists_free_candidate g.existingIds (generateHeadingSlug t)
  have h := genLoop_spec g.existingIds (generateHeadingSlug t)
    (g.existingIds.length + 1) 0 ⟨j, hj, by simpa using hfree⟩
  obtain ⟨m, hm, _, hall⟩ := h.2
  exact ⟨m, hm, fun i hi => hall i (Nat.zero_le i) hi⟩

theorem generateId_base (g : HeadingIdGenerator) (t : String)
    (h : generateHeadingSlug t ∉ g.existingIds) :
    (g.generateId t).1 = generateHeadingSlug t := by
  show genLoop g.existingIds (generateHeadingSlug t) (g.existingIds.length + 1) 0 = _
  have h0 : candidate (generateHeadingSlug t) 0 = generateHeadingSlug t := rfl
  simp [genLoop, h0, h]

theorem generateId_snd (g : HeadingIdGenerator) (t : String) :
    (g.generateId t).2.existingIds = (g.generateId t).1 :: g.existingIds := rfl

theorem runGenAux_fresh_nodup :
    ∀ (ts : List String) (g : HeadingIdGenerator),
      (∀ x ∈ runGenAux ts g, x ∉ g.existingIds) ∧ (runGenAux ts g).Nodup := by
  intro ts
  induction ts with
  | nil => intro g; simp [runGenAux]
  | cons t ts ih =>
    intro g
    have hfst := generateId_fst_not_mem g t
    have htail := ih (g.generateId t).2
    have hstate := generateId_snd g t
    constructor
    · intro x hx
      simp only [runGenAux, List.mem_cons] at hx
      rcases hx with rfl | hx
      · exact hfst
      · have hmem := htail.1 x hx
        rw [hstate] at hmem
        simp only [List.mem_cons, not_or] at hmem
        exact hmem.2
    · simp only [runGenAux, List.nodup_cons]
      refine ⟨fun hmem => ?_, htail.2⟩
      have h := htail.1 _ hmem
      rw [hstate] at h
      simp at h

theorem generateId_empty (t : String) :
    HeadingIdGenerator.generateId ⟨[]⟩ t =
      (generateHeadingSlug t, ⟨[generateHeadingSlug t]⟩) := by
  simp [HeadingIdGenerator.generateId, genLoop, candidate]

theorem candidate_zero (base : String) : candidate base 0 = base := rfl

theorem candidate_one (base : String) : candidate base 1 = base ++ "-1" := by
  apply String.ext
  have h1 : natToDec 1 = "1" := by decide
  simp only [candidate, h1, String.data_append, List.append_assoc]
  rfl

theorem candidate_two (base : String) : candidate base 2 = base ++ "-2" := by
  apply String.ext
  have h2 : natToDec 2 = "2" := by decide
  simp only [candidate, h2, String.data_append, List.append_assoc]
  rfl

theorem generateId_eq_of (g : HeadingIdGenerator) (t : String) (m : Nat)
    (hfree : candidate (generateHeadingSlug t) m ∉ g.existingIds)
    (hused : ∀ i, i < m → candidate (generateHeadingSlug t) i ∈ g.existingIds) :
    (g.generateId t).1 = candidate (generateHeadingSlug t) m := by
  obtain ⟨m', hm', hall'⟩ := generateId_least g t
  have hnot := generateId_fst_not_mem g t
  have heq : m' = m := by
    rcases lt_trichotomy m' m with h | h | h
    · exact absurd (hm' ▸ hused m' h) hnot
    · exact h
    · exact absurd (hall' m h) hfree
  rw [hm', heq]

theorem generateId_pair (g : HeadingIdGenerator) (t : String) (v : String)
    (h : (g.generateId t).1 = v) :
    g.generateId t = (v, ⟨v :: g.existingIds⟩) := by
  have h2 := generateId_snd g t
  rw [h] at h2
  have h3 : (g.generateId t).2 = ⟨v :: g.existingIds⟩ := by
    cases hsnd : (g.generateId t).2 with
    | mk ids => rw [hsnd] at h2; simp at h2; rw [h2]
  rw [← h3, ← h]

theorem runGenerator_triple (t : String) :
    runGenerator [t, t, t] =
      [generateHeadingSlug t, generateHeadingSlug t ++ "-1",
        generateHeadingSlug t ++ "-2"] := by
  set base := generateHeadingSlug t with hbase
  have hne1 : base ++ "-1" ≠ base := append_right_ne base "-1" (by decide)
  have hne2 : base ++ "-2" ≠ base := append_right_ne base "-2" (by decide)
  have hne21 : base ++ "-2" ≠ base ++ "-1" := by
    rw [Ne, append_right_inj]
    decide
  have h1 : HeadingIdGenerator.generateId ⟨[]⟩ t = (base, ⟨[base]⟩) :=
    generateId_empty t
  have h2 : HeadingIdGenerator.generateId ⟨[base]⟩ t =
      (base ++ "-1", ⟨[base ++ "-1", base]⟩) := by
    apply generateId_pair
    rw [← candidate_one]
    apply generateId_eq_of
    · rw [candidate_one]
      simp only [List.mem_singleton]
      exact hne1
    · intro i hi
      interval_cases i
      simp [candidate_zero]
  have h3 : HeadingIdGenerator.generateId ⟨[base ++ "-1", base]⟩ t =
      (base ++ "-2", ⟨[base ++ "-2", base ++ "-1", base]⟩) := by
    apply generateId_pair
    rw [← candidate_two]
    apply generateId_eq_of
    · rw [candidate_two]
      simp only [List.mem_cons, List.mem_singleton, List.not_mem_nil, not_or]
      exact ⟨hne21, hne2, by simp⟩
    · intro i hi
      interval_cases i
      · simp [candidate_zero]
      · simp [candidate_one]
  simp only [runGenerator, HeadingIdGenerator.empty, runGenAux, h1, h2, h3]

theorem collapseAux_true_eq (p : Char → Bool) (rep : Char) :
    ∀ l, collapseAux p rep true l = collapseAux p rep false (l.dropWhile p) := by
  intro l
  induction l with
  | nil => rfl
  | cons c cs ih =>
    by_cases h : p c
    · simp [collapseAux, List.dropWhile_cons, h, ih]
    · simp [collapseAux, List.dropWhile_cons, h]

theorem specCollapseRuns_eq_aux (p : Char → Bool) (rep : Char) :
    ∀ (n : Nat) (l : List Char), l.length ≤ n →
      specCollapseRuns p rep l = collapseRuns p rep l := by
  intro n
  induction n with
  | zero =>
    intro l hl
    have hnil : l = [] := List.length_eq_zero.mp (Nat.le_zero.mp hl)
    subst hnil
    simp [specCollapseRuns, collapseRuns, collapseAux]
  | succ n ih =>
    intro l hl
    cases l with
    | nil => simp [specCollapseRuns, collapseRuns, collapseAux]
    | cons c cs =>
      simp only [List.length_cons, Nat.succ_le_succ_iff] at hl
      by_cases h : p c
      · have hdrop : (cs.dropWhile p).length ≤ n :=
          Nat.le_trans (List.dropWhile_sublist p).length_le hl
        rw [specCollapseRuns]
        simp only [h, if_true]
        rw [ih _ hdrop]
        simp [collapseRuns, collapseAux, h, ← collapseAux_true_eq]
      · rw [specCollapseRuns]
        simp only [h, if_false]
        rw [ih cs hl]
        simp [collapseRuns, collapseAux, h]

theorem specCollapseRuns_eq (p : Char → Bool) (rep : Char) (l : List Char) :
    specCollapseRuns p rep l = collapseRuns p rep l :=
  specCollapseRuns_eq_aux p rep l.length l (Nat.le_refl _)

namespace useActiveHeading

theorem sortedInsert_ne_nil (le : IntersectionEntry → IntersectionEntry → Bool)
    (x : IntersectionEntry) (l : List IntersectionEntry) :
    sortedInsert le x l ≠ [] := by
  cases l with
  | nil => simp [sortedInsert]
  | cons y ys =>
    simp only [sortedInsert]
    by_cases h : le x y <;> simp [h]

theorem mem_sortedInsert (le : IntersectionEntry → IntersectionEntry → Bool)
    (x : IntersectionEntry) :
    ∀ (l : List IntersectionEntry) (y : IntersectionEntry),
      y ∈ sortedInsert le x l ↔ y = x ∨ y ∈ l := by
  intro l
  induction l with
  | nil => intro y; simp [sortedInsert]
  | cons z zs ih =>
    intro y
    simp only [sortedInsert]
    by_cases h : le x z = true
    · rw [if_pos h]
      simp only [List.mem_cons]
    · rw [if_neg h]
      simp only [List.mem_cons, ih]
      tauto

theorem mem_stableSort (le : IntersectionEntry → IntersectionEntry → Bool) :
    ∀ (l : List IntersectionEntry) (y : IntersectionEntry),
      y ∈ stableSort le l ↔ y ∈ l := by
  intro l
  induction l with
  | nil => intro y; simp [stableSort]
  | cons x xs ih =>
    intro y
    simp [stableSort, mem_sortedInsert, ih, List.mem_cons]

theorem stableSort_head_min (le : IntersectionEntry → IntersectionEntry → Bool)
    (htrans : ∀ a b c, le a b = true → le b c = true → le a c = true)
    (htotal : ∀ a b, le a b = true ∨ le b a = true) :
    ∀ (l : List IntersectionEntry) (h : IntersectionEntry)
      (t : List IntersectionEntry), stableSort le l = h :: t →
      h ∈ l ∧ ∀ y ∈ l, le h y = true := by
  have hrefl : ∀ a, le a a = true := by
    intro a
    rcases htotal a a with h | h <;> exact h
  intro l
  induction l with
  | nil => intro h t hst; simp [stableSort] at hst
  | cons x xs ih =>
    intro h t hst
    simp only [stableSort] at hst
    cases hs : stableSort le xs with
    | nil =>
      rw [hs] at hst
      simp only [sortedInsert] at hst
      have hxs : xs = [] := by
        cases xs with
        | nil => rfl
        | cons a as =>
          exfalso
          have hmem : a ∈ stableSort le (a :: as) :=
            (mem_stableSort le (a :: as) a).mpr (List.mem_cons_self a as)
          rw [show stableSort le (a :: as) = [] from hs] at hmem
          simp at hmem
      subst hxs
      injection hst with hhx htt
      rw [hhx]
      refine ⟨List.mem_cons_self h [], ?_⟩
      intro y hy
      simp only [List.mem_cons, List.not_mem_nil, or_false] at hy
      subst hy
      exact hrefl y
    | cons h0 t0 =>
      rw [hs] at hst
      have hih := ih h0 t0 hs
      simp only [sortedInsert] at hst
      by_cases hle : le x h0
      · simp only [hle, if_true] at hst
        have hhx : h = x := ((List.cons.injEq _ _ _ _).mp hst).1.symm
        subst hhx
        refine ⟨List.mem_cons_self h xs, ?_⟩
        intro y hy
        rcases List.mem_cons.mp hy with rfl | hy
        · exact hrefl y
        · exact htrans h h0 y hle (hih.2 y hy)
      · simp only [hle, if_false] at hst
        have hhh0 : h = h0 := ((List.cons.injEq _ _ _ _).mp hst).1.symm
        subst hhh0
        refine ⟨List.mem_cons_of_mem x hih.1, ?_⟩
        intro y hy
        rcases List.mem_cons.mp hy with rfl | hy
        · rcases htotal y h with hxy | hhy
          · exact absurd hxy (by simpa using hle)
          · exact hhy
        · exact hih.2 y hy

theorem topLe_trans (a b c : IntersectionEntry) :
    topLe a b = true → topLe b c = true → topLe a c = true := by
  simp only [topLe, decide_eq_true_eq]
  omega

theorem topLe_total (a b : IntersectionEntry) :
    topLe a b = true ∨ topLe b a = true := by
  simp only [topLe, decide_eq_true_eq]
  omega

end useActiveHeading

theorem matchHeadingLine_level (line : List Char) (lvl : Nat) (txt : List Char)
    (h : matchHeadingLine line = some (lvl, txt)) : lvl = 2 ∨ lvl = 3 := by
  simp only [matchHeadingLine] at h
  split at h
  next hcond =>
    split at h
    next => simp at h
    next c crest =>
      split at h
      next hc =>
        injection h with hp
        have hfst : (line.takeWhile (fun c => c = '#')).length = lvl :=
          congrArg Prod.fst hp
        rw [← hfst]
        simpa using hcond
      next hc => simp at h
  next hcond => simp at h

theorem parseTocGo_maxLevel_ge :
    ∀ (ls : List (List Char)) (g : HeadingIdGenerator) (k : Nat), 3 ≤ k →
      parseTocGo k ls g = parseTocGo 3 ls g := by
  intro ls
  induction ls with
  | nil => intro g k hk; rfl
  | cons line ls ih =>
    intro g k hk
    cases hm : matchHeadingLine line with
    | none => simp only [parseTocGo, hm]; exact ih g k hk
    | some p =>
      obtain ⟨lvl, txt⟩ := p
      have hlvl := matchHeadingLine_level line lvl txt hm
      have hk3 : ¬ lvl > k := by omega
      have h33 : ¬ lvl > 3 := by omega
      simp only [parseTocGo, hm, hk3, h33, if_false]
      rw [ih _ k hk]

theorem parseTocGo_levels :
    ∀ (ls : List (List Char)) (g : HeadingIdGenerator) (k : Nat)
      (item : WikiTocItem), item ∈ parseTocGo k ls g →
      item.level = 2 ∨ item.level = 3 := by
  intro ls
  induction ls with
  | nil => intro g k item h; simp [parseTocGo] at h
  | cons line ls ih =>
    intro g k item h
    cases hm : matchHeadingLine line with
    | none =>
      simp only [parseTocGo, hm] at h
      exact ih g k item h
    | some p =>
      obtain ⟨lvl, txt⟩ := p
      have hlvl := matchHeadingLine_level line lvl txt hm
      simp only [parseTocGo, hm] at h
      by_cases hgt : lvl > k
      · rw [if_pos hgt] at h
        exact ih g k item h
      · rw [if_neg hgt] at h
        rcases List.mem_cons.mp h with rfl | h2
        · exact hlvl
        · exact ih _ k item h2

theorem mk_empty_iff (l : List Char) : String.mk l = "" ↔ l = [] := by
  constructor
  · intro h
    exact congrArg String.data h
  · intro h
    rw [h]

/-! Claim theorems. -/

/-- C1: on the markdown consisting of the lines of two hashes A, three
hashes B, four hashes C, two hashes A, with maxLevel 3, the parser
returns exactly the three items a/A/2, b/B/3 and a-1/A/2 in that order;
the level-4 heading is not emitted and does not consume an ID, so the
repeated A receives the suffix -1 rather than -2. -/
theorem C1_parseToc_concrete :
    parseTocFromMarkdown "## A\n### B\n#### C\n## A" 3 =
      [⟨"a", "A", 2⟩, ⟨"b", "B", 3⟩, ⟨"a-1", "A", 2⟩] := by
  decide

/-- C2: the fallback revision of getTocFromContent returns the empty list
on null, returns a present non-empty array backend TOC verbatim, falls
back to parsing the markdown otherwise, and in particular parses one item
for heading X when the backend TOC is the empty array. -/
theorem C2_getTocFromContent :
    tocUtils.getTocFromContent none = [] ∧
    (∀ (c : WikiContent) (items : List WikiTocItem),
      Option.bind c.ext WikiExt.toc = some (TocField.arr items) → items ≠ [] →
      tocUtils.getTocFromContent (some c) = items) ∧
    (∀ c : WikiContent,
      (∀ items, Option.bind c.ext WikiExt.toc = some (TocField.arr items) →
        items = []) →
      tocUtils.getTocFromContent (some c) = parseTocFromMarkdown c.content 3) ∧
    tocUtils.getTocFromContent
      (some ⟨"## X", some ⟨some (TocField.arr [])⟩⟩) = [⟨"x", "X", 2⟩] := by
  refine ⟨rfl, ?_, ?_, by decide⟩
  · intro c items hb hne
    simp only [tocUtils.getTocFromContent, hb]
    cases items with
    | nil => exact absurd rfl hne
    | cons i is => simp
  · intro c hall
    cases hb : Option.bind c.ext WikiExt.toc with
    | none => simp [tocUtils.getTocFromContent, hb]
    | some tf =>
      cases tf with
      | nonArray => simp [tocUtils.getTocFromContent, hb]
      | arr items =>
        have hnil := hall items hb
        subst hnil
        simp [tocUtils.getTocFromContent, hb]

/-- Witness for C2 at a concrete content object carrying a non-empty
backend TOC: the selector returns it verbatim. -/
theorem C2_witness :
    tocUtils.getTocFromContent
      (some ⟨"ignored", some ⟨some (TocField.arr [⟨"i", "T", 2⟩])⟩⟩) =
      [⟨"i", "T", 2⟩] :=
  C2_getTocFromContent.2.1 _ [⟨"i", "T", 2⟩] rfl (by decide)

/-- C3: a generateId call never returns an ID already issued, returns the
base slug when it is still free, always returns the first free entry of
the candidate sequence base, base-1, base-2, ...; the IDs of a whole run
are pairwise distinct, and a text whose base slug repeats yields base,
base-1, base-2 in first-seen order. -/
theorem C3_generateId :
    (∀ (g : HeadingIdGenerator) (t : String),
      (g.generateId t).1 ∉ g.existingIds ∧
      (generateHeadingSlug t ∉ g.existingIds →
        (g.generateId t).1 = generateHeadingSlug t) ∧
      (∃ m, (g.generateId t).1 = candidate (generateHeadingSlug t) m ∧
        ∀ i, i < m → candidate (generateHeadingSlug t) i ∈ g.existingIds)) ∧
    (∀ ts : List String, (runGenerator ts).Nodup) ∧
    (∀ t : String, runGenerator [t, t, t] =
      [generateHeadingSlug t, generateHeadingSlug t ++ "-1",
        generateHeadingSlug t ++ "-2"]) := by
  refine ⟨fun g t =>
      ⟨generateId_fst_not_mem g t, generateId_base g t, generateId_least g t⟩,
    fun ts => (runGenAux_fresh_nodup ts HeadingIdGenerator.empty).2,
    runGenerator_triple⟩

/-- Witness for C3: on a fresh generator the base slug of A is issued
as-is, and a run on three copies of B yields b, b-1, b-2. -/
theorem C3_witness :
    (HeadingIdGenerator.generateId ⟨[]⟩ "A").1 = "a" ∧
      runGenerator ["B", "B", "B"] = ["b", "b-1", "b-2"] := by
  constructor
  · have h := (C3_generateId.1 ⟨[]⟩ "A").2.1 (by decide)
    rw [h]
    decide
  · have h := C3_generateId.2.2 "B"
    rw [h]
    decide

/-- C4: generateHeadingSlug agrees with the spec pipeline (lowercase and
trim, delete characters besides word characters, whitespace and hyphens,
replace whitespace/underscore runs with one hyphen, collapse hyphen runs,
strip edge hyphens, fall back to the literal heading on empty), and in
particular maps the Hello-World example to hello-world and triple
underscore to heading. -/
theorem C4_slug_matches_spec :
    (∀ s : String, generateHeadingSlug s = specHeadingSlug s) ∧
    generateHeadingSlug "Hello, World!" = "hello-world" ∧
    generateHeadingSlug "___" = "heading" := by
  refine ⟨?_, by decide, by decide⟩
  intro s
  simp only [generateHeadingSlug, specHeadingSlug, slugChars, specCollapseRuns_eq,
    mk_empty_iff]

/-- C5: in a batch with at least one intersecting entry the tracker
activates the intersecting entry of strictly smallest bounding-rect top,
non-intersecting entries never influence the choice, and a batch without
intersecting entries leaves the active heading unchanged. -/
theorem C5_handleIntersection :
    (∀ (entries : List useActiveHeading.IntersectionEntry) (active : Option String)
        (e : useActiveHeading.IntersectionEntry),
      e ∈ entries → e.isIntersecting = true →
      (∀ e2 ∈ entries, e2.isIntersecting = true → e2 = e ∨ e.top < e2.top) →
      useActiveHeading.handleIntersection entries active = some e.targetId) ∧
    (∀ (entries : List useActiveHeading.IntersectionEntry) (active : Option String),
      useActiveHeading.handleIntersection entries active =
        useActiveHeading.handleIntersection
          (entries.filter (fun e => e.isIntersecting)) active) ∧
    (∀ (entries : List useActiveHeading.IntersectionEntry) (active : Option String),
      (∀ e ∈ entries, e.isIntersecting = false) →
      useActiveHeading.handleIntersection entries active = active) := by
  refine ⟨?_, ?_, ?_⟩
  · intro entries active e hmem hint hstrict
    have he : e ∈ entries.filter (fun e => e.isIntersecting) :=
      List.mem_filter.mpr ⟨hmem, hint⟩
    cases hs : useActiveHeading.stableSort useActiveHeading.topLe
        (entries.filter (fun e => e.isIntersecting)) with
    | nil =>
      exfalso
      have hmem2 := (useActiveHeading.mem_stableSort useActiveHeading.topLe _ e).mpr he
      rw [hs] at hmem2
      simp at hmem2
    | cons h0 t0 =>
      have hmin := useActiveHeading.stableSort_head_min useActiveHeading.topLe
        useActiveHeading.topLe_trans
        (fun a b => (Bool.or_eq_true _ _).mp (by
          rcases useActiveHeading.topLe_total a b with h | h <;> simp [h])) _ h0 t0 hs
      have h0f := List.mem_filter.mp hmin.1
      rcases hstrict h0 h0f.1 h0f.2 with heq | hlt
      · subst heq
        simp [useActiveHeading.handleIntersection, hs]
      · exfalso
        have hle := hmin.2 e he
        simp only [useActiveHeading.topLe, decide_eq_true_eq] at hle
        omega
  · intro entries active
    simp [useActiveHeading.handleIntersection, List.filter_filter]
  · intro entries active hnone
    have hfil : entries.filter (fun e => e.isIntersecting) = [] := by
      rw [List.filter_eq_nil_iff]
      intro a ha
      simp [hnone a ha]
    simp [useActiveHeading.handleIntersection, hfil, useActiveHeading.stableSort]

/-- Witness for C5 at the spec example: two intersecting entries at top
offsets 40 and 120; the one at 40 is selected. -/
theorem C5_witness :
    useActiveHeading.handleIntersection
      [⟨true, 40, "h1"⟩, ⟨true, 120, "h2"⟩] none = some "h1" :=
  C5_handleIntersection.1 _ none ⟨true, 40, "h1"⟩ (by decide) (by decide) (by decide)

/-- C6 (amended): with a non-empty ID list and a null active state the
tracker defaults the active heading to the first listed ID; the default
never overrides an already-active heading whose ID is a non-empty string
(the source guard treats the falsy empty string like null); with an empty
ID list the state is unchanged. -/
theorem C6_initialDefault :
    (∀ (ids : List String) (h : String) (t : List String), ids = h :: t →
      useActiveHeading.applyInitialDefault ids none = some h) ∧
    (∀ (ids : List String) (x : String), x ≠ "" →
      useActiveHeading.applyInitialDefault ids (some x) = some x) ∧
    (∀ active, useActiveHeading.applyInitialDefault [] active = active) := by
  refine ⟨?_, ?_, fun active => rfl⟩
  · intro ids h t hid
    subst hid
    simp [useActiveHeading.applyInitialDefault, useActiveHeading.isFalsyActive]
  · intro ids x hx
    cases ids with
    | nil => rfl
    | cons i is =>
      simp [useActiveHeading.applyInitialDefault, useActiveHeading.isFalsyActive, hx]

/-- Counterexample for C6 as stated: the empty string is an already-active
heading ID in the state, yet the default effect overrides it with the
first listed ID, because the source guard tests JavaScript falsiness
rather than null-ness. -/
theorem C6_counterexample :
    useActiveHeading.applyInitialDefault ["a"] (some "") = some "a" ∧
      some "a" ≠ (some "" : Option String) := by
  decide

/-- Witness for C6: the default fires on a null state with a non-empty
list, and leaves a non-empty active ID alone. -/
theorem C6_witness :
    useActiveHeading.applyInitialDefault ["x", "y"] none = some "x" ∧
      useActiveHeading.applyInitialDefault ["x", "y"] (some "y") = some "y" :=
  ⟨C6_initialDefault.1 ["x", "y"] "x" ["y"] rfl,
   C6_initialDefault.2.1 ["x", "y"] "y" (by decide)⟩

/-- C7: the two observed revisions of getTocFromContent agree on null
input and whenever the backend TOC exists, is an array and is non-empty;
on every other input the fallback revision returns the client-side parse
and the strict revision returns the empty list, so they differ exactly
when that parse is non-empty. -/
theorem C7_two_revisions :
    tocUtils.getTocFromContent none = scrollUtils.getTocFromContent none ∧
    (∀ c : WikiContent, hasBackendToc c = true →
      tocUtils.getTocFromContent (some c) = scrollUtils.getTocFromContent (some c)) ∧
    (∀ c : WikiContent, hasBackendToc c = false →
      tocUtils.getTocFromContent (some c) = parseTocFromMarkdown c.content 3 ∧
      scrollUtils.getTocFromContent (some c) = [] ∧
      (tocUtils.getTocFromContent (some c) ≠ scrollUtils.getTocFromContent (some c) ↔
        parseTocFromMarkdown c.content 3 ≠ [])) := by
  refine ⟨rfl, ?_, ?_⟩
  · intro c h
    unfold hasBackendToc at h
    cases hb : Option.bind c.ext WikiExt.toc with
    | none => rw [hb] at h; simp at h
    | some tf =>
      cases tf with
      | nonArray => rw [hb] at h; simp at h
      | arr items =>
        rw [hb] at h
        simp only [Bool.not_eq_true'] at h
        simp [tocUtils.getTocFromContent, scrollUtils.getTocFromContent, hb, h]
  · intro c h
    unfold hasBackendToc at h
    cases hb : Option.bind c.ext WikiExt.toc with
    | none =>
      simp [tocUtils.getTocFromContent, scrollUtils.getTocFromContent, hb]
    | some tf =>
      cases tf with
      | nonArray =>
        simp [tocUtils.getTocFromContent, scrollUtils.getTocFromContent, hb]
      | arr items =>
        rw [hb] at h
        simp only [Bool.not_eq_false] at h
        simp [tocUtils.getTocFromContent, scrollUtils.getTocFromContent, hb, h]

/-- Witness for C7 at a content object without backend TOC and markdown
containing one heading: the fallback revision parses one item while the
strict revision returns none, so the revisions differ there. -/
theorem C7_witness :
    tocUtils.getTocFromContent (some ⟨"## X", none⟩) =
      parseTocFromMarkdown "## X" 3 ∧
    scrollUtils.getTocFromContent (some ⟨"## X", none⟩) = [] :=
  ⟨(C7_two_revisions.2.2 ⟨"## X", none⟩ rfl).1,
   (C7_two_revisions.2.2 ⟨"## X", none⟩ rfl).2.1⟩

/-- C8: when no element with the requested ID exists, both scroll
functions (the container variant taken with a non-null container) issue
no scroll request and return without error. -/
theorem C8_scroll_noop :
    ∀ (dom : scrollUtils.Dom) (id : String) (offset : Int)
      (cont : scrollUtils.Container),
      dom.elements id = none →
      scrollUtils.scrollToHeading dom id offset = none ∧
      scrollUtils.scrollToHeadingInContainer dom id (some cont) offset = none := by
  intro dom id offset cont h
  constructor
  · simp [scrollUtils.scrollToHeading, h]
  · simp [scrollUtils.scrollToHeadingInContainer, h]

/-- Witness for C8 on a document with no elements at all. -/
theorem C8_witness :
    scrollUtils.scrollToHeading ⟨fun _ => none, 0⟩ "missing" 80 = none ∧
      scrollUtils.scrollToHeadingInContainer ⟨fun _ => none, 0⟩ "missing"
        (some ⟨0, 0⟩) 80 = none :=
  C8_scroll_noop ⟨fun _ => none, 0⟩ "missing" 80 ⟨0, 0⟩ rfl

/-- C9: parseTocFromMarkdown is deterministic and restartable: two calls
on identical arguments give identical lists, and the result of the later
of two successive calls does not depend on the input of the earlier call
(the heading-ID generator is allocated inside each call, so the embedding
threads no state between calls). -/
theorem C9_parse_restartable :
    ∀ (md₁ md₂ : String) (k : Nat),
      (parseTocTwice md₂ md₂ k).1 = (parseTocTwice md₂ md₂ k).2 ∧
      (parseTocTwice md₁ md₂ k).2 = parseTocFromMarkdown md₂ k := by
  intro md₁ md₂ k
  exact ⟨rfl, rfl⟩

/-- C10: the heading pattern only matches two or three hash marks, so for
every maxLevel of at least 3 the parse equals the parse at maxLevel 3,
and every emitted item has level 2 or 3 whatever maxLevel is. -/
theorem C10_maxLevel_saturates :
    (∀ (md : String) (k : Nat), 3 ≤ k →
      parseTocFromMarkdown md k = parseTocFromMarkdown md 3) ∧
    (∀ (md : String) (k : Nat) (item : WikiTocItem),
      item ∈ parseTocFromMarkdown md k → item.level = 2 ∨ item.level = 3) := by
  constructor
  · intro md k hk
    unfold parseTocFromMarkdown
    by_cases h : md = ""
    · simp [h]
    · simp only [h, if_false]
      exact parseTocGo_maxLevel_ge _ _ k hk
  · intro md k item h
    unfold parseTocFromMarkdown at h
    by_cases hmd : md = ""
    · rw [if_pos hmd] at h
      simp at h
    · rw [if_neg hmd] at h
      exact parseTocGo_levels _ _ k item h

/-- Witness for C10: with maxLevel 7 the parse of a document with a
level-2 and a level-4 heading equals the parse with maxLevel 3. -/
theorem C10_witness :
    parseTocFromMarkdown "## A\n#### C" 7 = parseTocFromMarkdown "## A\n#### C" 3 :=
  C10_maxLevel_saturates.1 "## A\n#### C" 7 (by omega)

end Wegent
